import Mathlib

/-!
Shallow embedding of the Go load balancer (packages `backend` and
`balancer`) and verification of its specification.

Modelling conventions:
* A `Backend` keeps its target address as a string and its liveness flag
  as a `Bool`; the mutex guarding the flag and the reverse-proxy handle
  have no sequential content, so `SetAlive`/`IsAlive` become pure field
  update/read (the claims about them are sequential).
* `ServerPool.current` is Go's `uint64` counter, modelled as a `Nat`
  that every mutation reduces modulo `U64 = 2 ^ 64`, exactly as
  `atomic.AddUint64` wraps.
* Stateful methods are state-passing: they return their result paired
  with the updated pool.  `GetNextPeer` returns the *index* of the
  selected backend (the Go function returns the pointer
  `backends[idx]`; indices identify backends in the embedding).
* The HTTP client used by `HealthCheck` and the reverse proxy used by
  `LoadBalancerHandler` are external collaborators; they enter as
  function parameters (`net`, `proxy`).
-/

namespace LoadBalancer

/-- `2 ^ 64`, the modulus of Go's `uint64` arithmetic. -/
def U64 : Nat := 2 ^ 64

/-- Go struct `backend.Backend`: target URL and liveness flag.  The
`sync.RWMutex` and the `ReverseProxy` handle carry no sequential
state. -/
structure Backend where
  url : String
  alive : Bool
  deriving Repr, DecidableEq, Inhabited

/-- Go `func (backend *Backend) SetAlive(alive bool)`: overwrite the
liveness flag. -/
def Backend.SetAlive (b : Backend) (alive : Bool) : Backend :=
  { b with alive := alive }

/-- Go `func (backend *Backend) IsAlive() bool`: read the liveness
flag. -/
def Backend.IsAlive (b : Backend) : Bool :=
  b.alive

/-- Go struct `balancer.ServerPool`: backend slice plus the shared
`uint64` rotation cursor. -/
structure ServerPool where
  backends : List Backend
  current : Nat
  deriving Repr, DecidableEq

/-- Go `NewServerPool()`: empty pool, zero cursor. -/
def NewServerPool : ServerPool :=
  { backends := [], current := 0 }

/-- Go `AddBackend`: append a backend to the slice. -/
def ServerPool.AddBackend (p : ServerPool) (b : Backend) : ServerPool :=
  { p with backends := p.backends ++ [b] }

/-- Go `NextIndex()`: on an empty pool return 0 without touching the
cursor; otherwise `atomic.AddUint64(&current, 1)` (wrapping at
`2 ^ 64`) and return the new counter value modulo the length. -/
def ServerPool.NextIndex (p : ServerPool) : Nat × ServerPool :=
  if p.backends.length = 0 then
    (0, p)
  else
    let cur := (p.current + 1) % U64
    (cur % p.backends.length, { p with current := cur })

/-- `backends[idx].IsAlive()` as a total function on the index; all
uses index within bounds (`idx = i % length` with the list
non-empty), where it equals the Go expression. -/
def aliveAt (bs : List Backend) (idx : Nat) : Bool :=
  match bs[idx]? with
  | some b => b.IsAlive
  | none => false

/-- The `for i := next; i < length; i++` scan body of `GetNextPeer`:
given the list of loop-variable values, return the first `i` whose
backend at `i % len(backends)` is alive. -/
def scanAlive (bs : List Backend) : List Nat → Option Nat
  | [] => none
  | i :: rest =>
    if aliveAt bs (i % bs.length) then some i else scanAlive bs rest

/-- Go `GetNextPeer()`: empty pool yields none; otherwise take
`next := NextIndex()`, scan loop variables `next, …, next+length-1`,
and on a hit at loop variable `i` with `idx := i % length` store `idx`
into the cursor when `i ≠ next`, returning index `idx`. -/
def ServerPool.GetNextPeer (p : ServerPool) : Option Nat × ServerPool :=
  if p.backends.length = 0 then
    (none, p)
  else
    let next := (p.NextIndex).1
    let p1 := (p.NextIndex).2
    match scanAlive p1.backends (List.range' next p1.backends.length) with
    | some i =>
      let idx := i % p1.backends.length
      if i ≠ next then (some idx, { p1 with current := idx })
      else (some idx, p1)
    | none => (none, p1)

/-- The `2 * time.Second` probe timeout of `HealthCheck`, in seconds. -/
def healthCheckTimeoutSeconds : Nat := 2

/-- Model of `http.Client{Timeout: timeout}.Get`: the network answers
with `some (elapsed, status)` when a response arrives after `elapsed`
time units, `none` on a connection error; the client turns a response
arriving after the timeout into an error (`none`). -/
def clientGet (timeout : Nat) (resp : Option (Nat × Int)) : Option Int :=
  match resp with
  | none => none
  | some (elapsed, status) =>
    if elapsed ≤ timeout then some status else none

/-- The per-backend body of the `HealthCheck` loop: probe, compute
`alive` (`err == nil` and `200 <= StatusCode < 300`), `SetAlive`, and
produce the log line `"<url> [up]"` or `"<url> [down]"`. -/
def healthCheckStep (net : String → Option (Nat × Int)) (b : Backend) :
    Backend × String :=
  let alive :=
    match clientGet healthCheckTimeoutSeconds (net b.url) with
    | none => false
    | some status => decide (200 ≤ status) && decide (status < 300)
  let b1 := b.SetAlive alive
  let status := if alive then "up" else "down"
  (b1, b.url ++ " [" ++ status ++ "]")

/-- Go `HealthCheck()`: iterate over all backends, probing each once;
returns the updated pool and the emitted log lines in order. -/
def ServerPool.HealthCheck (p : ServerPool)
    (net : String → Option (Nat × Int)) : ServerPool × List String :=
  let results := p.backends.map (healthCheckStep net)
  ({ p with backends := results.map Prod.fst }, results.map Prod.snd)

/-- An HTTP response as observed by the client of the dispatcher. -/
structure HttpResponse where
  status : Int
  body : String
  deriving Repr, DecidableEq

/-- `http.StatusServiceUnavailable`. -/
def statusServiceUnavailable : Int := 503

/-- The response written by `http.Error(writer, "Service not
available", http.StatusServiceUnavailable)` (`http.Error` appends a
newline to the message). -/
def serviceNotAvailableResponse : HttpResponse :=
  { status := statusServiceUnavailable, body := "Service not available\n" }

/-- Go `LoadBalancerHandler`: ask `GetNextPeer`; on a peer, delegate
the whole exchange to its reverse proxy (`proxy idx` is the response
that backend `idx`'s `ReverseProxy.ServeHTTP` writes); otherwise
answer 503 with a short plain-text body. -/
def ServerPool.LoadBalancerHandler (p : ServerPool)
    (proxy : Nat → HttpResponse) : HttpResponse × ServerPool :=
  match p.GetNextPeer with
  | (some idx, p1) => (proxy idx, p1)
  | (none, p1) => (serviceNotAvailableResponse, p1)

/-- `n` consecutive sequential calls to `NextIndex`, collecting the
returned indices in call order together with the final pool state. -/
def nextIndexSeq : ServerPool → Nat → List Nat × ServerPool
  | p, 0 => ([], p)
  | p, n + 1 =>
    let i := (p.NextIndex).1
    let p1 := (p.NextIndex).2
    let r := nextIndexSeq p1 n
    (i :: r.1, r.2)

/-! Concrete pools used by the witnesses. -/

/-- A backend that is alive. -/
def bkA : Backend := { url := "http://a", alive := true }

/-- A backend that is down. -/
def bkB : Backend := { url := "http://b", alive := false }

/-- Another alive backend. -/
def bkC : Backend := { url := "http://c", alive := true }

/-- Three-backend pool (alive, down, alive) with a fresh cursor. -/
def poolABC : ServerPool := { backends := [bkA, bkB, bkC], current := 0 }

/-- Three-backend pool in which only the middle backend is alive. -/
def poolOnlyB : ServerPool :=
  { backends := [{ url := "http://a", alive := false },
                 { url := "http://b", alive := true },
                 { url := "http://c", alive := false }],
    current := 0 }

/-- Three-backend pool whose `uint64` cursor sits two increments below
the wraparound point. -/
def poolWrap : ServerPool :=
  { backends := [bkA, bkB, bkC], current := U64 - 2 }

/-- A concrete network for health-check witnesses: only `http://a`
answers, promptly and with status 204. -/
def netW : String → Option (Nat × Int) :=
  fun u => if u = "http://a" then some (1, 204) else none

/-- A concrete reverse-proxy behaviour for dispatcher witnesses. -/
def proxyW : Nat → HttpResponse :=
  fun _ => { status := 200, body := "Backend response" }

example : poolABC.GetNextPeer = (some 2, { poolABC with current := 2 }) := by
  decide

example : (poolOnlyB.GetNextPeer).1 = some 1 := by decide

example : (nextIndexSeq poolABC 6).1 = [1, 2, 0, 1, 2, 0] := by decide

/-! Helper lemmas about `NextIndex`. -/

theorem nextIndex_eq_of_empty (p : ServerPool) (h : p.backends.length = 0) :
    p.NextIndex = (0, p) := by
  unfold ServerPool.NextIndex
  rw [if_pos h]

theorem nextIndex_eq_of_ne (p : ServerPool) (h : p.backends.length ≠ 0) :
    p.NextIndex = (((p.current + 1) % U64) % p.backends.length,
      { p with current := (p.current + 1) % U64 }) := by
  unfold ServerPool.NextIndex
  rw [if_neg h]

theorem nextIndex_backends (p : ServerPool) :
    (p.NextIndex).2.backends = p.backends := by
  unfold ServerPool.NextIndex
  split <;> rfl

theorem nextIndex_fst_lt (p : ServerPool) (h : p.backends.length ≠ 0) :
    (p.NextIndex).1 < p.backends.length := by
  rw [nextIndex_eq_of_ne p h]
  exact Nat.mod_lt _ (Nat.pos_of_ne_zero h)

/-! Modular-arithmetic window lemmas: on any window of `n` consecutive
naturals the residue map modulo `n` is injective and surjective onto
`[0, n)`. -/

theorem mod_eq_unique_in_window {n s i j : Nat} (hi1 : s ≤ i) (hi2 : i < s + n)
    (hj1 : s ≤ j) (hj2 : j < s + n) (hmod : i % n = j % n) : i = j := by
  rcases Nat.le_total i j with hle | hle
  · have hd : n ∣ j - i := (Nat.modEq_iff_dvd' hle).mp hmod
    have hz : j - i = 0 := Nat.eq_zero_of_dvd_of_lt hd (by omega)
    omega
  · have hd : n ∣ i - j := (Nat.modEq_iff_dvd' hle).mp hmod.symm
    have hz : i - j = 0 := Nat.eq_zero_of_dvd_of_lt hd (by omega)
    omega

theorem exists_mod_eq_in_window (n s m : Nat) (hm : m < n) :
    ∃ i, s ≤ i ∧ i < s + n ∧ i % n = m := by
  have hn : 0 < n := by omega
  have hrlt : s % n < n := Nat.mod_lt s hn
  have hdm : n * (s / n) + s % n = s := Nat.div_add_mod s n
  refine ⟨s + (m + n - s % n) % n, Nat.le_add_right _ _, ?_, ?_⟩
  · have : (m + n - s % n) % n < n := Nat.mod_lt _ hn
    omega
  · rw [Nat.add_mod_mod]
    have he : s + (m + n - s % n) = n * (s / n) + (m + n) := by omega
    rw [he, Nat.mul_add_mod, Nat.add_mod_right, Nat.mod_eq_of_lt hm]

/-! Characterization of the `GetNextPeer` scan loop. -/

theorem scanAlive_eq_some_iff (bs : List Backend) (c : Nat) :
    ∀ s i : Nat, scanAlive bs (List.range' s c) = some i ↔
      (s ≤ i ∧ i < s + c ∧ aliveAt bs (i % bs.length) = true ∧
        ∀ j, s ≤ j → j < i → aliveAt bs (j % bs.length) = false) := by
  induction c with
  | zero =>
    intro s i
    simp only [List.range'_zero, scanAlive]
    constructor
    · intro hc
      exact Option.noConfusion hc
    · rintro ⟨h1, h2, -, -⟩
      exfalso
      omega
  | succ c ih =>
    intro s i
    rw [List.range'_succ]
    cases hs : aliveAt bs (s % bs.length) with
    | true =>
      have hrw : scanAlive bs (s :: List.range' (s + 1) c) = some s := by
        simp [scanAlive, hs]
      rw [hrw]
      constructor
      · intro hsome
        have his : i = s := (Option.some.inj hsome).symm
        subst his
        refine ⟨Nat.le_refl i, by omega, hs, ?_⟩
        intro j h1 h2
        exfalso
        omega
      · rintro ⟨h1, h2, h3, h4⟩
        have his : i = s := by
          by_contra hne
          have hlt : s < i := by omega
          have hdead := h4 s (Nat.le_refl s) hlt
          rw [hdead] at hs
          exact Bool.noConfusion hs
        rw [his]
    | false =>
      have hrw : scanAlive bs (s :: List.range' (s + 1) c) =
          scanAlive bs (List.range' (s + 1) c) := by
        simp [scanAlive, hs]
      rw [hrw, ih (s + 1) i]
      constructor
      · rintro ⟨h1, h2, h3, h4⟩
        refine ⟨by omega, by omega, h3, ?_⟩
        intro j hj1 hj2
        rcases Nat.eq_or_lt_of_le hj1 with he | hlt
        · rw [← he]
          exact hs
        · exact h4 j hlt hj2
      · rintro ⟨h1, h2, h3, h4⟩
        have hne : i ≠ s := by
          intro he
          rw [he] at h3
          rw [h3] at hs
          exact Bool.noConfusion hs
        exact ⟨by omega, by omega, h3, fun j hj1 hj2 => h4 j (by omega) hj2⟩

theorem scanAlive_eq_none_iff (bs : List Backend) (c : Nat) :
    ∀ s : Nat, scanAlive bs (List.range' s c) = none ↔
      ∀ j, s ≤ j → j < s + c → aliveAt bs (j % bs.length) = false := by
  induction c with
  | zero =>
    intro s
    simp only [List.range'_zero, scanAlive]
    constructor
    · intro _ j h1 h2
      exfalso
      omega
    · intro _
      trivial
  | succ c ih =>
    intro s
    rw [List.range'_succ]
    cases hs : aliveAt bs (s % bs.length) with
    | true =>
      have hrw : scanAlive bs (s :: List.range' (s + 1) c) = some s := by
        simp [scanAlive, hs]
      rw [hrw]
      constructor
      · intro hc
        exact Option.noConfusion hc
      · intro hall
        have hdead := hall s (Nat.le_refl s) (by omega)
        rw [hdead] at hs
        exact Bool.noConfusion hs
    | false =>
      have hrw : scanAlive bs (s :: List.range' (s + 1) c) =
          scanAlive bs (List.range' (s + 1) c) := by
        simp [scanAlive, hs]
      rw [hrw, ih (s + 1)]
      constructor
      · intro h j hj1 hj2
        rcases Nat.eq_or_lt_of_le hj1 with he | hlt
        · rw [← he]
          exact hs
        · exact h j hlt (by omega)
      · intro h j hj1 hj2
        exact h j (by omega) (by omega)

/-! `GetNextPeer` unfolded against the scan, then characterized. -/

theorem nextIndex_fst_eq (p : ServerPool) (h : p.backends.length ≠ 0) :
    (p.NextIndex).1 = ((p.current + 1) % U64) % p.backends.length := by
  rw [nextIndex_eq_of_ne p h]

theorem getNextPeer_fst_eq (p : ServerPool) (h : p.backends.length ≠ 0) :
    (p.GetNextPeer).1 =
      (scanAlive p.backends
        (List.range' (((p.current + 1) % U64) % p.backends.length)
          p.backends.length)).map
        (fun i => i % p.backends.length) := by
  simp only [ServerPool.GetNextPeer, if_neg h, nextIndex_eq_of_ne p h]
  cases hscan : scanAlive p.backends
      (List.range' (((p.current + 1) % U64) % p.backends.length)
        p.backends.length) with
  | none => rfl
  | some i =>
    dsimp only
    by_cases hie : i ≠ ((p.current + 1) % U64) % p.backends.length
    · rw [if_pos hie]
      rfl
    · rw [if_neg hie]
      rfl

theorem getNextPeer_snd_current (p : ServerPool) (h : p.backends.length ≠ 0)
    (i : Nat)
    (hscan : scanAlive p.backends
      (List.range' (((p.current + 1) % U64) % p.backends.length)
        p.backends.length) = some i) :
    (i ≠ ((p.current + 1) % U64) % p.backends.length →
      (p.GetNextPeer).2.current = i % p.backends.length) ∧
    (i = ((p.current + 1) % U64) % p.backends.length →
      (p.GetNextPeer).2.current = (p.current + 1) % U64) := by
  simp only [ServerPool.GetNextPeer, if_neg h, nextIndex_eq_of_ne p h, hscan]
  constructor
  · intro hie
    rw [if_pos hie]
  · intro hie
    rw [if_neg (by simp [hie])]

theorem getNextPeer_some_char (p : ServerPool) (h : p.backends.length ≠ 0)
    (idx : Nat) :
    (p.GetNextPeer).1 = some idx ↔
      ∃ k, k < p.backends.length ∧
        idx = ((p.NextIndex).1 + k) % p.backends.length ∧
        aliveAt p.backends idx = true ∧
        ∀ j, j < k →
          aliveAt p.backends
            (((p.NextIndex).1 + j) % p.backends.length) = false := by
  have hstart : (p.NextIndex).1 < p.backends.length := nextIndex_fst_lt p h
  rw [getNextPeer_fst_eq p h, ← nextIndex_fst_eq p h]
  cases hscan : scanAlive p.backends
      (List.range' (p.NextIndex).1 p.backends.length) with
  | some i =>
    obtain ⟨h1, h2, h3, h4⟩ :=
      (scanAlive_eq_some_iff p.backends p.backends.length (p.NextIndex).1 i).mp
        hscan
    rw [Option.map_some']
    constructor
    · intro hsome
      have hidx : idx = i % p.backends.length := (Option.some.inj hsome).symm
      refine ⟨i - (p.NextIndex).1, by omega, ?_, ?_, ?_⟩
      · rw [show (p.NextIndex).1 + (i - (p.NextIndex).1) = i from by omega]
        exact hidx
      · rw [hidx]
        exact h3
      · intro j hj
        exact h4 ((p.NextIndex).1 + j) (by omega) (by omega)
    · rintro ⟨k, hk1, hk2, hk3, hk4⟩
      have hik : i = (p.NextIndex).1 + k := by
        rcases Nat.lt_trichotomy i ((p.NextIndex).1 + k) with hlt | heq | hgt
        · exfalso
          have hdead := hk4 (i - (p.NextIndex).1) (by omega)
          rw [show (p.NextIndex).1 + (i - (p.NextIndex).1) = i from by omega]
            at hdead
          rw [hdead] at h3
          exact Bool.noConfusion h3
        · exact heq
        · exfalso
          have hdead := h4 ((p.NextIndex).1 + k) (by omega) hgt
          rw [← hk2] at hdead
          rw [hdead] at hk3
          exact Bool.noConfusion hk3
      rw [hik, ← hk2]
  | none =>
    have hall :=
      (scanAlive_eq_none_iff p.backends p.backends.length (p.NextIndex).1).mp
        hscan
    constructor
    · intro hc
      exact Option.noConfusion hc
    · rintro ⟨k, hk1, hk2, hk3, hk4⟩
      exfalso
      have hdead := hall ((p.NextIndex).1 + k) (by omega) (by omega)
      rw [← hk2] at hdead
      rw [hdead] at hk3
      exact Bool.noConfusion hk3

theorem getNextPeer_none_char (p : ServerPool) (h : p.backends.length ≠ 0) :
    (p.GetNextPeer).1 = none ↔
      ∀ m, m < p.backends.length → aliveAt p.backends m = false := by
  rw [getNextPeer_fst_eq p h, ← nextIndex_fst_eq p h]
  cases hscan : scanAlive p.backends
      (List.range' (p.NextIndex).1 p.backends.length) with
  | some i =>
    obtain ⟨h1, h2, h3, h4⟩ :=
      (scanAlive_eq_some_iff p.backends p.backends.length (p.NextIndex).1 i).mp
        hscan
    rw [Option.map_some']
    constructor
    · intro hc
      exact Option.noConfusion hc
    · intro hall
      exfalso
      have hdead := hall (i % p.backends.length)
        (Nat.mod_lt _ (Nat.pos_of_ne_zero h))
      rw [hdead] at h3
      exact Bool.noConfusion h3
  | none =>
    have hall :=
      (scanAlive_eq_none_iff p.backends p.backends.length (p.NextIndex).1).mp
        hscan
    constructor
    · intro _ m hm
      obtain ⟨i, hi1, hi2, hi3⟩ :=
        exists_mod_eq_in_window p.backends.length (p.NextIndex).1 m hm
      rw [← hi3]
      exact hall i hi1 hi2
    · intro _
      rfl

theorem getNextPeer_backends_frame (p : ServerPool) :
    (p.GetNextPeer).2.backends = p.backends := by
  by_cases h : p.backends.length = 0
  · unfold ServerPool.GetNextPeer
    rw [if_pos h]
  · simp only [ServerPool.GetNextPeer, if_neg h, nextIndex_eq_of_ne p h]
    cases scanAlive p.backends
        (List.range' (((p.current + 1) % U64) % p.backends.length)
          p.backends.length) with
    | some i =>
      dsimp only
      by_cases hie : i ≠ ((p.current + 1) % U64) % p.backends.length
      · rw [if_pos hie]
      · rw [if_neg hie]
    | none => rfl

theorem getNextPeer_empty (p : ServerPool) (h : p.backends.length = 0) :
    p.GetNextPeer = (none, p) := by
  unfold ServerPool.GetNextPeer
  rw [if_pos h]

/-! Liveness over indices versus liveness over members. -/

theorem aliveAt_forall_iff (bs : List Backend) :
    (∀ m, m < bs.length → aliveAt bs m = false) ↔
      ∀ b ∈ bs, b.IsAlive = false := by
  constructor
  · intro h b hb
    obtain ⟨m, hm⟩ := List.mem_iff_get?.mp hb
    have hml : m < bs.length := by
      by_contra hge
      rw [List.get?_eq_none.mpr (by omega)] at hm
      exact Option.noConfusion hm
    have halive := h m hml
    unfold aliveAt at halive
    rw [List.get?_eq_getElem?] at hm
    rw [hm] at halive
    exact halive
  · intro h m _
    unfold aliveAt
    cases hg : bs[m]? with
    | none => rfl
    | some b =>
      apply h
      rw [← List.get?_eq_getElem?] at hg
      exact List.get?_mem hg

/-! The indices produced by consecutive `NextIndex` calls. -/

theorem nextIndexSeq_fst (p : ServerPool) (n : Nat)
    (h : p.backends.length ≠ 0) :
    (nextIndexSeq p n).1 =
      (List.range n).map
        (fun k => ((p.current + k + 1) % U64) % p.backends.length) := by
  induction n generalizing p with
  | zero => rfl
  | succ n ih =>
    have hb : ((p.NextIndex).2).backends.length ≠ 0 := by
      rw [nextIndex_backends]
      exact h
    have hseq : (nextIndexSeq p (n + 1)).1 =
        (p.NextIndex).1 :: (nextIndexSeq (p.NextIndex).2 n).1 := rfl
    rw [hseq, ih _ hb, nextIndex_eq_of_ne p h, List.range_succ_eq_map,
      List.map_cons, List.map_map]
    dsimp only
    congr 1
    apply List.map_congr_left
    intro a _
    show (((p.current + 1) % U64 + a + 1) % U64) % p.backends.length =
      ((p.current + (a + 1) + 1) % U64) % p.backends.length
    have harith : ((p.current + 1) % U64 + a + 1) % U64 =
        (p.current + (a + 1) + 1) % U64 := by
      rw [Nat.add_assoc, Nat.mod_add_mod]
      congr 1
      omega
    rw [harith]

/-- `k + 1` over `range m` enumerates `[1, …, m]`. -/
theorem map_add_one_range (m : Nat) :
    (List.range m).map (fun k => k + 1) = List.range' 1 m := by
  rw [List.range'_eq_map_range]
  apply List.map_congr_left
  intro a _
  omega

/-! Claim theorems. -/

/-- C1: `GetNextPeer()` returns none if and only if the pool is empty
or every registered backend's `IsAlive()` is false; whenever it
returns a backend, that backend's `IsAlive()` was true when it was
checked during the scan. -/
theorem getNextPeer_none_iff_no_alive (p : ServerPool) :
    ((p.GetNextPeer).1 = none ↔
      p.backends = [] ∨ ∀ b ∈ p.backends, b.IsAlive = false) ∧
    ∀ idx, (p.GetNextPeer).1 = some idx →
      idx < p.backends.length ∧ aliveAt p.backends idx = true := by
  by_cases h : p.backends.length = 0
  · have hnil : p.backends = [] := List.length_eq_zero.mp h
    rw [getNextPeer_empty p h]
    constructor
    · simp [hnil]
    · intro idx hc
      exact Option.noConfusion hc
  · constructor
    · rw [getNextPeer_none_char p h, aliveAt_forall_iff]
      constructor
      · intro ha
        exact Or.inr ha
      · rintro (hnil | ha)
        · exfalso
          rw [hnil] at h
          exact h rfl
        · exact ha
    · intro idx hidx
      obtain ⟨k, hk1, hk2, hk3, -⟩ := (getNextPeer_some_char p h idx).mp hidx
      refine ⟨?_, hk3⟩
      rw [hk2]
      exact Nat.mod_lt _ (Nat.pos_of_ne_zero h)

/-- Witness for C1 at the pool `poolABC` (alive, down, alive): the
returned index 2 is in bounds and names an alive backend. -/
theorem getNextPeer_none_iff_no_alive_witness :
    2 < poolABC.backends.length ∧ aliveAt poolABC.backends 2 = true :=
  (getNextPeer_none_iff_no_alive poolABC).2 2 (by decide)

/-- C2: on a non-empty pool, `GetNextPeer()` returns exactly the first
backend, in strictly increasing index order starting at
`start = NextIndex()` and wrapping modulo the length within a single
full pass, whose `IsAlive()` is true. -/
theorem getNextPeer_scan_order (p : ServerPool) (h : p.backends.length ≠ 0)
    (idx : Nat) :
    (p.GetNextPeer).1 = some idx ↔
      ∃ k, k < p.backends.length ∧
        idx = ((p.NextIndex).1 + k) % p.backends.length ∧
        aliveAt p.backends idx = true ∧
        ∀ j, j < k →
          aliveAt p.backends
            (((p.NextIndex).1 + j) % p.backends.length) = false :=
  getNextPeer_some_char p h idx

/-- Witness for C2 at `poolABC`: index 2 is reached after skipping the
dead backend one step past the start. -/
theorem getNextPeer_scan_order_witness :
    ∃ k, k < poolABC.backends.length ∧
      2 = ((poolABC.NextIndex).1 + k) % poolABC.backends.length ∧
      aliveAt poolABC.backends 2 = true ∧
      ∀ j, j < k →
        aliveAt poolABC.backends
          (((poolABC.NextIndex).1 + j) % poolABC.backends.length) = false :=
  (getNextPeer_scan_order poolABC (by decide) 2).mp (by decide)

/-- C3: in a pool with exactly one alive backend, every call to
`GetNextPeer()` returns that backend, whatever the cursor value. -/
theorem getNextPeer_unique_alive (p : ServerPool) (i : Nat)
    (hi : i < p.backends.length)
    (ha : aliveAt p.backends i = true)
    (hu : ∀ j, j < p.backends.length → j ≠ i →
      aliveAt p.backends j = false) :
    (p.GetNextPeer).1 = some i := by
  have h0 : p.backends.length ≠ 0 := by omega
  have hstart : (p.NextIndex).1 < p.backends.length := nextIndex_fst_lt p h0
  rw [getNextPeer_some_char p h0 i]
  obtain ⟨w, hw1, hw2, hw3⟩ :=
    exists_mod_eq_in_window p.backends.length (p.NextIndex).1 i hi
  refine ⟨w - (p.NextIndex).1, by omega, ?_, ha, ?_⟩
  · rw [show (p.NextIndex).1 + (w - (p.NextIndex).1) = w from by omega, hw3]
  · intro j hj
    apply hu
    · exact Nat.mod_lt _ (by omega)
    · intro he
      have heq : (p.NextIndex).1 + j = w :=
        mod_eq_unique_in_window (n := p.backends.length)
          (s := (p.NextIndex).1) (by omega) (by omega) (by omega) (by omega)
          (by rw [he, ← hw3])
      omega

/-- Witness for C3: in `poolOnlyB` only the middle backend is alive
and `GetNextPeer()` returns it. -/
theorem getNextPeer_unique_alive_witness :
    (poolOnlyB.GetNextPeer).1 = some 1 :=
  getNextPeer_unique_alive poolOnlyB 1 (by decide) (by decide) (by decide)

/-- C4: `NextIndex()` on an empty pool returns 0 and leaves the pool
untouched; on a non-empty pool it bumps the `uint64` cursor by one
(wrapping at `2 ^ 64`), leaves the backend list alone, and returns the
new cursor value modulo the length. -/
theorem nextIndex_contract (p : ServerPool) :
    (p.backends.length = 0 → p.NextIndex = (0, p)) ∧
    (p.backends.length ≠ 0 →
      (p.NextIndex).2.current = (p.current + 1) % U64 ∧
      (p.NextIndex).2.backends = p.backends ∧
      (p.NextIndex).1 = ((p.current + 1) % U64) % p.backends.length) := by
  constructor
  · exact nextIndex_eq_of_empty p
  · intro h
    rw [nextIndex_eq_of_ne p h]
    exact ⟨rfl, rfl, rfl⟩

/-- Witness for C4 on the empty pool and on `poolABC`. -/
theorem nextIndex_contract_witness :
    NewServerPool.NextIndex = (0, NewServerPool) ∧
    ((poolABC.NextIndex).2.current = (poolABC.current + 1) % U64 ∧
      (poolABC.NextIndex).2.backends = poolABC.backends ∧
      (poolABC.NextIndex).1 =
        ((poolABC.current + 1) % U64) % poolABC.backends.length) :=
  ⟨(nextIndex_contract NewServerPool).1 rfl,
   (nextIndex_contract poolABC).2 (by decide)⟩

/-- C5: the backend list is never changed by `GetNextPeer()`; when it
returns a backend found at an index other than the starting index it
overwrites the cursor with that index, and when the hit is at the
starting index the cursor keeps only the `NextIndex` increment. -/
theorem getNextPeer_cursor_effect (p : ServerPool) :
    (p.GetNextPeer).2.backends = p.backends ∧
    ∀ idx, (p.GetNextPeer).1 = some idx →
      (idx ≠ (p.NextIndex).1 → (p.GetNextPeer).2.current = idx) ∧
      (idx = (p.NextIndex).1 →
        (p.GetNextPeer).2.current = (p.current + 1) % U64) := by
  refine ⟨getNextPeer_backends_frame p, ?_⟩
  intro idx hidx
  by_cases h : p.backends.length = 0
  · exfalso
    rw [getNextPeer_empty p h] at hidx
    exact Option.noConfusion hidx
  · have hstart : (p.NextIndex).1 < p.backends.length := nextIndex_fst_lt p h
    have hnx : (p.NextIndex).1 =
        ((p.current + 1) % U64) % p.backends.length := nextIndex_fst_eq p h
    rw [hnx] at hstart
    rw [getNextPeer_fst_eq p h] at hidx
    cases hscan : scanAlive p.backends
        (List.range' (((p.current + 1) % U64) % p.backends.length)
          p.backends.length) with
    | none =>
      rw [hscan] at hidx
      exact Option.noConfusion hidx
    | some i =>
      rw [hscan, Option.map_some'] at hidx
      have hidx' : idx = i % p.backends.length := (Option.some.inj hidx).symm
      obtain ⟨h1, h2, h3, h4⟩ :=
        (scanAlive_eq_some_iff p.backends p.backends.length
          (((p.current + 1) % U64) % p.backends.length) i).mp hscan
      have hcur := getNextPeer_snd_current p h i hscan
      by_cases hie : i = ((p.current + 1) % U64) % p.backends.length
      · have hidxstart : idx = (p.NextIndex).1 := by
          rw [hidx', hie, hnx]
          exact Nat.mod_eq_of_lt hstart
        constructor
        · intro hne
          exact absurd hidxstart hne
        · intro _
          exact hcur.2 hie
      · have hidxne : idx ≠ (p.NextIndex).1 := by
          rw [hnx, hidx']
          intro he
          apply hie
          refine mod_eq_unique_in_window (n := p.backends.length)
            (s := ((p.current + 1) % U64) % p.backends.length)
            h1 h2 (Nat.le_refl _) (by omega) ?_
          rw [he, Nat.mod_eq_of_lt hstart]
        constructor
        · intro _
          rw [hidx']
          exact hcur.1 hie
        · intro heq
          exact absurd heq hidxne

/-- Witness for C5 at `poolABC`: the hit at index 2 differs from the
start index 1, so the cursor is overwritten with 2, and the backend
list is unchanged. -/
theorem getNextPeer_cursor_effect_witness :
    (poolABC.GetNextPeer).2.backends = poolABC.backends ∧
    (poolABC.GetNextPeer).2.current = 2 :=
  ⟨(getNextPeer_cursor_effect poolABC).1,
   ((getNextPeer_cursor_effect poolABC).2 2 (by decide)).1 (by decide)⟩

/-- C6 counterexample: with the `uint64` cursor at `2 ^ 64 - 2`, three
consecutive `NextIndex()` calls on a pool of size 3 yield `[0, 0, 1]`
— not pairwise distinct, because the counter wraps at `2 ^ 64` and
`2 ^ 64` is not a multiple of 3. -/
theorem nextIndexSeq_wrap_counterexample :
    poolWrap.backends.length = 3 ∧
    (nextIndexSeq poolWrap 3).1 = [0, 0, 1] ∧
    ¬ (nextIndexSeq poolWrap 3).1.Nodup :=
  ⟨rfl, by decide, by decide⟩

/-- C6 (amended): for every pool of size `N ≥ 1` whose cursor value
`c` satisfies `c + N < 2 ^ 64` (so the 64-bit counter does not wrap
during the calls), `N` consecutive sequential calls to `NextIndex()`
produce the residues modulo `N` of the `N` strictly increasing
consecutive counter values `c + 1, …, c + N`, and those `N` values are
pairwise distinct. -/
theorem nextIndexSeq_distinct (p : ServerPool) (h : p.backends.length ≠ 0)
    (hw : p.current + p.backends.length < U64) :
    (nextIndexSeq p p.backends.length).1 =
      (List.range p.backends.length).map
        (fun k => (p.current + k + 1) % p.backends.length) ∧
    (nextIndexSeq p p.backends.length).1.Nodup := by
  have heq : (nextIndexSeq p p.backends.length).1 =
      (List.range p.backends.length).map
        (fun k => (p.current + k + 1) % p.backends.length) := by
    rw [nextIndexSeq_fst p p.backends.length h]
    apply List.map_congr_left
    intro a ha
    have halt : a < p.backends.length := List.mem_range.mp ha
    rw [Nat.mod_eq_of_lt (show p.current + a + 1 < U64 from by omega)]
  refine ⟨heq, ?_⟩
  rw [heq]
  apply List.Nodup.map_on ?_ (List.nodup_range _)
  intro x hx y hy hf
  have hx' : x < p.backends.length := List.mem_range.mp hx
  have hy' : y < p.backends.length := List.mem_range.mp hy
  have hxy := mod_eq_unique_in_window (n := p.backends.length)
    (s := p.current + 1) (i := p.current + x + 1) (j := p.current + y + 1)
    (by omega) (by omega) (by omega) (by omega) hf
  omega

/-- Witness for the amended C6 at `poolABC` (cursor 0, three
backends, no wraparound). -/
theorem nextIndexSeq_distinct_witness :
    (nextIndexSeq poolABC poolABC.backends.length).1 =
      (List.range poolABC.backends.length).map
        (fun k => (poolABC.current + k + 1) % poolABC.backends.length) ∧
    (nextIndexSeq poolABC poolABC.backends.length).1.Nodup :=
  nextIndexSeq_distinct poolABC (by decide) (by decide)

/-- C7: one `HealthCheck` pass probes every backend once; a backend
ends up alive exactly when the network answers within the 2-unit
timeout with a 2xx status; the pass emits exactly one log line per
backend, of the shape `<backend-address> [up]` or
`<backend-address> [down]`. -/
theorem healthCheck_contract (p : ServerPool)
    (net : String → Option (Nat × Int)) :
    (p.HealthCheck net).2.length = p.backends.length ∧
    (p.HealthCheck net).1.backends.length = p.backends.length ∧
    ∀ (i : Nat) (b : Backend), p.backends[i]? = some b →
      ∃ b1, (p.HealthCheck net).1.backends[i]? = some b1 ∧
        b1.url = b.url ∧
        (b1.IsAlive = true ↔
          ∃ e s, net b.url = some (e, s) ∧ e ≤ healthCheckTimeoutSeconds ∧
            200 ≤ s ∧ s < 300) ∧
        (p.HealthCheck net).2[i]? =
          some (b.url ++ " [" ++
            (if b1.IsAlive then "up" else "down") ++ "]") := by
  refine ⟨?_, ?_, ?_⟩
  · simp [ServerPool.HealthCheck]
  · simp [ServerPool.HealthCheck]
  · intro i b hb
    refine ⟨(healthCheckStep net b).1, ?_, rfl, ?_, ?_⟩
    · simp [ServerPool.HealthCheck, List.getElem?_map, hb]
    · cases hnet : net b.url with
      | none =>
        have hal : (healthCheckStep net b).1.IsAlive = false := by
          simp [healthCheckStep, clientGet, hnet, Backend.SetAlive,
            Backend.IsAlive]
        rw [hal]
        constructor
        · intro hc
          exact Bool.noConfusion hc
        · rintro ⟨e1, s1, hes, -, -, -⟩
          exact Option.noConfusion hes
      | some es =>
        obtain ⟨e, s⟩ := es
        by_cases he : e ≤ healthCheckTimeoutSeconds
        · have hal : (healthCheckStep net b).1.IsAlive =
              (decide (200 ≤ s) && decide (s < 300)) := by
            simp [healthCheckStep, clientGet, hnet, he, Backend.SetAlive,
              Backend.IsAlive]
          rw [hal]
          constructor
          · intro hbool
            rw [Bool.and_eq_true, decide_eq_true_eq, decide_eq_true_eq]
              at hbool
            exact ⟨e, s, rfl, he, hbool.1, hbool.2⟩
          · rintro ⟨e1, s1, hes, he1, h200, h300⟩
            have hp := Option.some.inj hes
            have he2 : e = e1 := congrArg Prod.fst hp
            have hs2 : s = s1 := congrArg Prod.snd hp
            rw [Bool.and_eq_true, decide_eq_true_eq, decide_eq_true_eq]
            constructor
            · omega
            · omega
        · have hal : (healthCheckStep net b).1.IsAlive = false := by
            simp [healthCheckStep, clientGet, hnet, he, Backend.SetAlive,
              Backend.IsAlive]
          rw [hal]
          constructor
          · intro hc
            exact Bool.noConfusion hc
          · rintro ⟨e1, s1, hes, he1, -, -⟩
            have hp := Option.some.inj hes
            have he2 : e = e1 := congrArg Prod.fst hp
            exfalso
            omega
    · have h2i : (p.HealthCheck net).2[i]? =
          some ((healthCheckStep net b).2) := by
        simp [ServerPool.HealthCheck, List.getElem?_map, hb]
      rw [h2i]
      rfl

/-- Witness for C7 at `poolABC` under the network `netW`: backend 0
(`http://a`) answers 204 within the timeout, hence comes up alive with
an `[up]`-shaped log line. -/
theorem healthCheck_contract_witness :
    ∃ b1, (poolABC.HealthCheck netW).1.backends[0]? = some b1 ∧
      b1.url = bkA.url ∧
      (b1.IsAlive = true ↔
        ∃ e s, netW bkA.url = some (e, s) ∧ e ≤ healthCheckTimeoutSeconds ∧
          200 ≤ s ∧ s < 300) ∧
      (poolABC.HealthCheck netW).2[0]? =
        some (bkA.url ++ " [" ++
          (if b1.IsAlive then "up" else "down") ++ "]") :=
  (healthCheck_contract poolABC netW).2.2 0 bkA (by decide)

/-- The dispatcher result is determined by `GetNextPeer`: a 503 with a
short plain-text body when no peer exists, the chosen backend's proxy
response otherwise. -/
theorem loadBalancerHandler_fst (p : ServerPool)
    (proxy : Nat → HttpResponse) :
    (p.LoadBalancerHandler proxy).1 =
      match (p.GetNextPeer).1 with
      | some idx => proxy idx
      | none => serviceNotAvailableResponse := by
  unfold ServerPool.LoadBalancerHandler
  rcases hgp : p.GetNextPeer with ⟨o, p1⟩
  cases o <;> rfl

/-- C8: on each request the dispatcher consults `GetNextPeer()`; with
no peer it answers 503 "Service not available" at once (no retry, no
queuing), and with a peer it hands the whole exchange to that
backend's reverse proxy, whose status and body the client sees
unchanged. -/
theorem dispatcher_contract (p : ServerPool) (proxy : Nat → HttpResponse) :
    ((p.GetNextPeer).1 = none →
      (p.LoadBalancerHandler proxy).1 =
        { status := 503, body := "Service not available\n" }) ∧
    ∀ idx, (p.GetNextPeer).1 = some idx →
      (p.LoadBalancerHandler proxy).1 = proxy idx := by
  constructor
  · intro h
    rw [loadBalancerHandler_fst p proxy, h]
    rfl
  · intro idx h
    rw [loadBalancerHandler_fst p proxy, h]

/-- Witness for C8: the empty pool produces the 503 response, and
`poolABC` delegates to the proxy of backend 2. -/
theorem dispatcher_contract_witness :
    (NewServerPool.LoadBalancerHandler proxyW).1 =
      { status := 503, body := "Service not available\n" } ∧
    (poolABC.LoadBalancerHandler proxyW).1 = proxyW 2 :=
  ⟨(dispatcher_contract NewServerPool proxyW).1 (by decide),
   (dispatcher_contract poolABC proxyW).2 2 (by decide)⟩

/-- C9: `SetAlive` always succeeds and a subsequent `IsAlive` reads
back exactly the written value; the backend's address is untouched
(`IsAlive` itself is a pure read and mutates nothing). -/
theorem setAlive_isAlive_contract (b : Backend) (v : Bool) :
    (b.SetAlive v).IsAlive = v ∧ (b.SetAlive v).url = b.url :=
  ⟨rfl, rfl⟩

/-- C10: on a fresh pool (cursor 0) of size `N ≥ 2`, the first
`NextIndex()` call returns 1, not 0, and the first full rotation cycle
visits `1, 2, …, N-1` and only then index 0 — index 0 is served
last. -/
theorem fresh_pool_first_cycle (p : ServerPool) (hc : p.current = 0)
    (h2 : 2 ≤ p.backends.length) (hU : p.backends.length < U64) :
    (p.NextIndex).1 = 1 ∧
    (nextIndexSeq p p.backends.length).1 =
      List.range' 1 (p.backends.length - 1) ++ [0] := by
  have h0 : p.backends.length ≠ 0 := by omega
  constructor
  · rw [nextIndex_fst_eq p h0, hc]
    rw [Nat.mod_eq_of_lt (show 0 + 1 < U64 from by decide)]
    exact Nat.mod_eq_of_lt (by omega)
  · obtain ⟨m, hm⟩ : ∃ m, p.backends.length = m + 1 :=
      ⟨p.backends.length - 1, by omega⟩
    rw [nextIndexSeq_fst p p.backends.length h0, hc]
    have hstep : ∀ a ∈ List.range p.backends.length,
        ((0 + a + 1) % U64) % p.backends.length =
          (a + 1) % p.backends.length := by
      intro a ha
      have halt : a < p.backends.length := List.mem_range.mp ha
      rw [Nat.mod_eq_of_lt (show 0 + a + 1 < U64 from by omega)]
      congr 1
      omega
    rw [List.map_congr_left hstep]
    rw [hm, List.range_succ, List.map_append]
    congr 1
    · have hmap : (List.range m).map (fun a => (a + 1) % (m + 1)) =
          (List.range m).map (fun a => a + 1) := by
        apply List.map_congr_left
        intro a ha
        have halt : a < m := List.mem_range.mp ha
        exact Nat.mod_eq_of_lt (by omega)
      rw [hmap, map_add_one_range, Nat.add_sub_cancel]
    · simp [Nat.mod_self]

/-- Witness for C10 at `poolABC`: first call yields 1 and the first
cycle is `[1, 2, 0]`. -/
theorem fresh_pool_first_cycle_witness :
    (poolABC.NextIndex).1 = 1 ∧
    (nextIndexSeq poolABC poolABC.backends.length).1 =
      List.range' 1 (poolABC.backends.length - 1) ++ [0] :=
  fresh_pool_first_cycle poolABC rfl (by decide) (by decide)

end LoadBalancer
